import Mathlib

/-!
Verification development for the IBO localization module `libdmet/lo/ibo.py`.

The Python source is shallowly embedded below.  Matrices are modelled as
functions `ℕ → ℕ → ℝ` with explicit dimensions (all the arithmetic in the
source is exact real-valued mathematics, which we model over `ℝ`); fallible
Python code (assertions, `raise`, unbound locals) is modelled with
`Except PyErr`.  The integer-valued orbital counts of `MakeAtomInfos` are
modelled over `ℕ` (the source stores some of them as the exact
integer-valued floats `18/2` etc.; all arithmetic on them is exact).
-/

namespace IboSpec

/-- Error classes raised by the Python source.  `assertionError` models the
`assert` statement, `nameError` models referencing a never-bound loop
variable (`UnboundLocalError`), `unorderedLabels` models the
`ValueError("labels are not ordered...")` raised by `get_offset`,
`valueError` models `int()` parse failures, `keyError` models a missing
dict key, `indexError` models indexing an empty list, and
`notImplementedError` models `raise NotImplementedError`. -/
inductive PyErr where
  | assertionError
  | nameError
  | unorderedLabels
  | valueError
  | keyError
  | indexError
  | notImplementedError
  deriving DecidableEq, Repr

/-! ## String utilities

`pySplit` models Python `str.split()` (split on whitespace runs, dropping
empty pieces).  `pyInt?` models `int(tok)` on the token shapes that occur
here: an optional leading minus sign followed by decimal digits. -/

/-- Split a character list on whitespace, accumulating the current word in
reverse. -/
def splitWsAux : List Char → List Char → List (List Char)
  | [], acc => if acc.isEmpty then [] else [acc.reverse]
  | c :: rest, acc =>
    if c.isWhitespace then
      if acc.isEmpty then splitWsAux rest []
      else acc.reverse :: splitWsAux rest []
    else splitWsAux rest (c :: acc)

/-- Model of Python `str.split()` (no argument): split on runs of
whitespace, no empty tokens. -/
def pySplit (s : String) : List String :=
  (splitWsAux s.data []).map String.mk

/-- Decimal digits to a natural number; `none` if empty or a non-digit
occurs. -/
def digitsToNat? : List Char → Option ℕ
  | [] => none
  | cs =>
    cs.foldl
      (fun acc? c =>
        acc?.bind fun acc =>
          if c.isDigit then some (acc * 10 + (c.toNat - 48)) else none)
      (some 0)

/-- Model of Python `int(tok)` on an optionally-signed decimal token. -/
def pyInt? (s : String) : Option Int :=
  match s.data with
  | '-' :: rest => (digitsToNat? rest).map fun n => -(n : Int)
  | cs => (digitsToNat? cs).map fun n => (n : Int)

/-- The leading token of a basis-function label (`lab.split()[0]`). -/
def leadTok? (lab : String) : Option String :=
  (pySplit lab).head?

/-- The leading atom index of a label, as an unsigned integer
(`int(lab.split()[0])` restricted to unsigned tokens). -/
def leadNat? (lab : String) : Option ℕ :=
  (leadTok? lab).bind fun t => (pyInt? t).bind fun n => n.toNat'

/-! ## AtomBasisTable (`MakeAtomInfos`, source lines 324–434)

Only the total minimal-basis orbital count `nAoX` is consumed by
`MakeAtomIbOffsets`.  The table below lists, per element, the value the
source assigns (the source's `18/2`, `36/2`, ... are the exact
integer-valued floats 9, 18, ...):
`H He ↦ 1`; `Li Be ↦ 2`; `B C O N F Ne ↦ 5`; `Na Mg ↦ 3*1+1*3 = 6`;
`Al..Ar ↦ 3*1+2*3 = 9`; `K Ca ↦ 9+1 = 10`; `Sc..Zn ↦ 9+1+5 = 15`;
`Ga..Kr ↦ 9+1+5+3 = 18`; `Rb Sr ↦ 18+1 = 19`; `Y..Cd ↦ 18+1+5 = 24`;
`In..Xe ↦ (18+5)+1+3 = 27`; `Cs Ba ↦ 27+1 = 28`; `Ce..Lu ↦ 27+1+5+7 = 40`;
`La Hf..Hg ↦ (27+7)+1+5 = 40`; `Tl..Rn ↦ (27+7+5)+1+3 = 43`;
`Fr Ra ↦ 43+1 = 44`; `Th..No ↦ 43+1+5+7 = 56`; `Ac Lr..Cn ↦ (43+7)+1+5 = 56`;
`Nh..Og ↦ (43+7+5)+1+3 = 59`. -/
def nAoXTable : List (String × ℕ) :=
  [("H", 1), ("He", 1),
   ("Li", 2), ("Be", 2),
   ("B", 5), ("C", 5), ("O", 5), ("N", 5), ("F", 5), ("Ne", 5),
   ("Na", 6), ("Mg", 6),
   ("Al", 9), ("Si", 9), ("P", 9), ("S", 9), ("Cl", 9), ("Ar", 9),
   ("K", 10), ("Ca", 10),
   ("Sc", 15), ("Ti", 15), ("V", 15), ("Cr", 15), ("Mn", 15),
   ("Fe", 15), ("Co", 15), ("Ni", 15), ("Cu", 15), ("Zn", 15),
   ("Ga", 18), ("Ge", 18), ("As", 18), ("Se", 18), ("Br", 18), ("Kr", 18),
   ("Rb", 19), ("Sr", 19),
   ("Y", 24), ("Zr", 24), ("Nb", 24), ("Mo", 24), ("Tc", 24),
   ("Ru", 24), ("Rh", 24), ("Pd", 24), ("Ag", 24), ("Cd", 24),
   ("In", 27), ("Sn", 27), ("Sb", 27), ("Te", 27), ("I", 27), ("Xe", 27),
   ("Cs", 28), ("Ba", 28),
   ("Ce", 40), ("Pr", 40), ("Nd", 40), ("Pm", 40), ("Sm", 40),
   ("Eu", 40), ("Gd", 40), ("Tb", 40), ("Dy", 40), ("Ho", 40),
   ("Er", 40), ("Tm", 40), ("Yb", 40), ("Lu", 40),
   ("La", 40), ("Hf", 40), ("Ta", 40), ("W", 40), ("Re", 40),
   ("Os", 40), ("Ir", 40), ("Pt", 40), ("Au", 40), ("Hg", 40),
   ("Tl", 43), ("Pb", 43), ("Bi", 43), ("Po", 43), ("At", 43), ("Rn", 43),
   ("Fr", 44), ("Ra", 44),
   ("Th", 56), ("Pa", 56), ("U", 56), ("Np", 56), ("Pu", 56),
   ("Am", 56), ("Cm", 56), ("Bk", 56), ("Cf", 56), ("Es", 56),
   ("Fm", 56), ("Md", 56), ("No", 56),
   ("Ac", 56), ("Lr", 56), ("Rf", 56), ("Db", 56), ("Sg", 56),
   ("Bh", 56), ("Hs", 56), ("Mt", 56), ("Ds", 56), ("Rg", 56), ("Cn", 56),
   ("Nh", 59), ("Fl", 59), ("Mc", 59), ("Lv", 59), ("Ts", 59), ("Og", 59)]

/-- `nAoX[at]` — total minimal-basis orbital count of an element (the keys
of the source dict are unique, so first-match lookup agrees with it). -/
def nAoX (a : String) : Option ℕ :=
  (nAoXTable.find? fun p => p.1 = a).map (·.2)

/-- `''.join(char for char in Atom if char.isalpha())` (source line 443). -/
def filterAlpha (s : String) : String :=
  String.mk (s.data.filter Char.isAlpha)

/-! ## AtomOffsetBuilder

`MakeAtomIbOffsets` (source lines 437–445) produces the cumulative offsets
`iBfAt = [0, c₀, c₀+c₁, ...]`; `ibo_loc` (lines 141–142) turns them into
per-atom slices `slice(iBfAt[A], iBfAt[A+1])`. -/

/-- The tail of the offsets list, starting from a given running offset:
each atom appends `previous + nAoX[Atom]`; a missing table entry is a
`KeyError`. -/
def ibOffsetsFrom (start : ℕ) : List String → Except PyErr (List ℕ)
  | [] => .ok []
  | a :: rest =>
    match nAoX (filterAlpha a) with
    | none => .error .keyError
    | some c => (ibOffsetsFrom (start + c) rest).map fun l => (start + c) :: l

/-- `MakeAtomIbOffsets(Atoms)[0]`: offsets list beginning with 0. -/
def MakeAtomIbOffsets (Atoms : List String) : Except PyErr (List ℕ) :=
  (ibOffsetsFrom 0 Atoms).map fun l => 0 :: l

/-- The atom slices `[slice(AtomOffsets[A], AtomOffsets[A+1]) for A in
range(nAtoms)]` built in `ibo_loc` (source lines 140–142). -/
def atomSlices (Atoms : List String) : Except PyErr (List (ℕ × ℕ)) :=
  (MakeAtomIbOffsets Atoms).map fun offs =>
    (List.range Atoms.length).map fun A => (offs.getD A 0, offs.getD (A + 1) 0)

/-! ## `get_offset` (source lines 238–254)

The loop state carries `last_id` (a string), its integer value
(recomputed as `int(last_id)` by the source on every iteration; it is
deterministic, so we cache it), `last_i`, and the accumulated `offset`
list.  The final `offset.append(slice(last_i, i + 1))` references the loop
variable `i`, which is never bound when `labels` is empty: that path is an
`UnboundLocalError`, modelled by `nameError`. -/

/-- Loop state of `get_offset`. -/
structure GoState where
  last_id : String
  last_int : Int
  last_i : Int
  offset : List (Int × Int)
  deriving DecidableEq, Repr

/-- One iteration of the `get_offset` loop at position `i` on label
`lab`. -/
def goStep (i : ℕ) (st : GoState) (lab : String) : Except PyErr GoState :=
  match pySplit lab with
  | [] => .error .indexError
  | cur_id :: _ =>
    match pyInt? cur_id with
    | none => .error .valueError
    | some n =>
      if n < st.last_int then .error .unorderedLabels
      else if cur_id ≠ st.last_id then
        .ok { last_id := cur_id, last_int := n, last_i := (i : Int),
              offset :=
                if st.last_i ≥ 0 then st.offset ++ [(st.last_i, (i : Int))]
                else st.offset }
      else .ok st

/-- The `get_offset` loop over the labels starting at position `i`. -/
def goLoop (i : ℕ) (st : GoState) : List String → Except PyErr GoState
  | [] => .ok st
  | lab :: rest => do goLoop (i + 1) (← goStep i st lab) rest

/-- `get_offset(labels)` (source lines 238–254). -/
def get_offset (labels : List String) : Except PyErr (List (Int × Int)) := do
  let st ← goLoop 0 ⟨"-1", -1, -1, []⟩ labels
  match labels.length with
  | 0 => .error .nameError
  | n + 1 => .ok (st.offset ++ [(st.last_i, ((n + 1 : ℕ) : Int))])

/-- The leading tokens of a label list (default `""` never occurs on
well-formed labels). -/
def leadToks (labels : List String) : List String :=
  labels.map fun l => (leadTok? l).getD ""

/-- The leading atom indices of a label list, as naturals. -/
def leadVals (labels : List String) : List ℕ :=
  labels.map fun l => (leadNat? l).getD 0

/-- Every label has a leading token that parses as an unsigned integer. -/
def labelsOk (labels : List String) : Bool :=
  labels.all fun l => (leadNat? l).isSome

/-- Maximal runs of equal consecutive tokens, as half-open index slices.
`runsAux t start i toks`: the current run began at index `start` with token
`t`, and `toks` are the tokens from index `i` on; the final slice extends
to the end of the sequence. -/
def runsAux (t : String) (start i : ℕ) : List String → List (Int × Int)
  | [] => [((start : Int), (i : Int))]
  | t2 :: rest =>
    if t2 = t then runsAux t start (i + 1) rest
    else ((start : Int), (i : Int)) :: runsAux t2 i (i + 1) rest

/-- One slice per maximal run of equal consecutive tokens, in order, the
final slice ending at the sequence length. -/
def tokenRuns : List String → List (Int × Int)
  | [] => []
  | t :: rest => runsAux t 0 1 rest

/-! ## Pure form of the offsets list -/

/-- The orbital count an atom contributes (defined when the element is in
the table). -/
def aoCount (a : String) : ℕ :=
  (nAoX (filterAlpha a)).getD 0

/-- Pure cumulative-offsets tail: the value of `ibOffsetsFrom` when every
element is present in the table. -/
def offsPure (start : ℕ) : List String → List ℕ
  | [] => []
  | a :: rest => (start + aoCount a) :: offsPure (start + aoCount a) rest

/-! ## JacobiLocalizer (`ibo_loc`, source lines 117–236)

Matrices are index functions `ℕ → ℕ → ℝ` with dimensions passed where a
contraction needs them.  The external collaborators (Löwdin
orthogonalization `orth.vec_lowdin`, the one-to-one column map
`mo_mapping.mo_1to1map`) are parameters of the embedding, consumed through
their interfaces as the spec prescribes. -/

noncomputable section

/-- Real-valued matrices as index functions. -/
def RMat : Type := ℕ → ℕ → ℝ

/-- The all-zero matrix (used for concrete instantiations). -/
def zeroRM : RMat := fun _ _ => 0

/-- Transpose. -/
def matT (A : RMat) : RMat := fun i j => A j i

/-- Matrix product with explicit inner dimension `m`. -/
def matMul (m : ℕ) (A B : RMat) : RMat :=
  fun i j => ∑ k in Finset.range m, A i k * B k j

/-- `numpy.dot(CIbA[:,i], CIbA[:,j])` where `CIbA = CIb[iAtSl[k],:]`:
the dot product of two columns restricted to an atom slice. -/
def sliceDot (C : RMat) (sl : ℕ × ℕ) (i j : ℕ) : ℝ :=
  ∑ k in Finset.Ico sl.1 sl.2, C k i * C k j

/-- Per-atom contribution to `Aij` (source lines 187 and 191). -/
def Aterm (p : ℕ) (Cii Cij Cjj : ℝ) : ℝ :=
  if p = 2 then 4 * Cij ^ 2 - (Cii - Cjj) ^ 2
  else -Cii ^ 4 - Cjj ^ 4 + 6 * (Cii ^ 2 + Cjj ^ 2) * Cij ^ 2
       + Cii ^ 3 * Cjj + Cii * Cjj ^ 3

/-- Per-atom contribution to `Bij` (source lines 188 and 190). -/
def Bterm (p : ℕ) (Cii Cij Cjj : ℝ) : ℝ :=
  if p = 2 then 4 * Cij * (Cii - Cjj)
  else 4 * Cij * (Cii ^ 3 - Cjj ^ 3)

/-- The `for k in range(nAtoms)` accumulation of `(Aij, Bij)` (source
lines 178–191). -/
def calcAB (p : ℕ) (slices : List (ℕ × ℕ)) (C : RMat) (i j : ℕ) : ℝ × ℝ :=
  slices.foldl
    (fun AB sl =>
      (AB.1 + Aterm p (sliceDot C sl i i) (sliceDot C sl i j) (sliceDot C sl j j),
       AB.2 + Bterm p (sliceDot C sl i i) (sliceDot C sl i j) (sliceDot C sl j j)))
    (0, 0)

/-- `numpy.arctan2` on reals (reals carry no signed zero, so the
`atan2(±0, −0)` distinctions collapse to the `x = 0` row). -/
def arctan2 (y x : ℝ) : ℝ :=
  if 0 < x then Real.arctan (y / x)
  else if x < 0 then
    if 0 ≤ y then Real.arctan (y / x) + Real.pi
    else Real.arctan (y / x) - Real.pi
  else
    if 0 < y then Real.pi / 2
    else if y < 0 then -(Real.pi / 2)
    else 0

/-- The in-place 2x2 column rotation (source lines 207–212); `Ci`, `Cj`
are copies of the old columns. -/
def rotateCols (C : RMat) (i j : ℕ) (phi : ℝ) : RMat := fun k c =>
  if c = i then Real.cos phi * C k i + Real.sin phi * C k j
  else if c = j then -Real.sin phi * C k i + Real.cos phi * C k j
  else C k c

/-- Processing of one orbital pair `(i, j)` (source lines 178–212): skip
when `Aij² + Bij² < 1e-12`, otherwise rotate by `phi = 0.25·atan2(Bij,
−Aij)` and add `Bij²` to `fGrad`. -/
def jacobiPair (p : ℕ) (slices : List (ℕ × ℕ)) (st : RMat × ℝ) (i j : ℕ) :
    RMat × ℝ :=
  let AB := calcAB p slices st.1 i j
  if AB.1 ^ 2 + AB.2 ^ 2 < 1e-12 then st
  else
    let phi := 0.25 * arctan2 AB.2 (-AB.1)
    (rotateCols st.1 i j phi, st.2 + AB.2 ^ 2)

/-- One Jacobi sweep (source lines 165–212): `fGrad` starts at 0, then the
nested loops `for i in range(numOccOrbitals): for j in range(i):`. -/
def jacobiSweep (p : ℕ) (slices : List (ℕ × ℕ)) (n : ℕ) (C : RMat) :
    RMat × ℝ :=
  (List.range n).foldl
    (fun st i => (List.range i).foldl (fun st2 j => jacobiPair p slices st2 i j) st)
    (C, 0)

/-- The localization functional `L` (source lines 168–172, diagnostic
only). -/
def locFunctional (p : ℕ) (slices : List (ℕ × ℕ)) (n : ℕ) (C : RMat) : ℝ :=
  slices.foldl (fun L sl => L + ∑ i in Finset.range n, sliceDot C sl i i ^ p) 0

/-! Spec-side rendering of one sweep, written from the spec's words: the
fixed lower-triangular pair list, coefficients accumulated as sums over
the atom slices, and the stated skip/rotation per pair. -/

/-- The fixed pair visitation order: outer `i` ascending from 0, inner `j`
ascending from 0 to `i − 1`. -/
def lowerPairs (n : ℕ) : List (ℕ × ℕ) :=
  (List.range n).flatMap fun i => (List.range i).map fun j => (i, j)

/-- `(Aij, Bij)` as sums over atom slices (spec wording). -/
def specAB (p : ℕ) (slices : List (ℕ × ℕ)) (C : RMat) (i j : ℕ) : ℝ × ℝ :=
  ((slices.map fun sl =>
      Aterm p (sliceDot C sl i i) (sliceDot C sl i j) (sliceDot C sl j j)).sum,
   (slices.map fun sl =>
      Bterm p (sliceDot C sl i i) (sliceDot C sl i j) (sliceDot C sl j j)).sum)

/-- One sweep as the spec states it: fold the per-pair skip/rotate step
over the lower-triangular pair list, each pair seeing the matrix already
rotated by all previous pairs. -/
def jacobiSweepSpec (p : ℕ) (slices : List (ℕ × ℕ)) (n : ℕ) (C : RMat) :
    RMat × ℝ :=
  (lowerPairs n).foldl
    (fun st ij =>
      let AB := specAB p slices st.1 ij.1 ij.2
      if AB.1 ^ 2 + AB.2 ^ 2 < 1e-12 then st
      else
        (rotateCols st.1 ij.1 ij.2 (0.25 * arctan2 AB.2 (-AB.1)),
         st.2 + AB.2 ^ 2))
    (C, 0)

/-! ## The sweep loop (source lines 164–226) -/

/-- The matrix after `m` full sweeps. -/
def cibAfter (p : ℕ) (slices : List (ℕ × ℕ)) (n : ℕ) (C0 : RMat) : ℕ → RMat
  | 0 => C0
  | m + 1 => (jacobiSweep p slices n (cibAfter p slices n C0 m)).1

/-- `gradientNorm = sqrt(fGrad)` of the `(m+1)`-st sweep (0-based `m`). -/
def gradAt (p : ℕ) (slices : List (ℕ × ℕ)) (n : ℕ) (C0 : RMat) (m : ℕ) : ℝ :=
  Real.sqrt (jacobiSweep p slices n (cibAfter p slices n C0 m)).2

/-- `for it in range(max_iter)` with the convergence break: returns the
final matrix, the last sweep's `fGrad**0.5`, the number of sweeps
executed, and the `Converged` flag.  With zero fuel the loop body never
ran, so `it` and `fGrad` were never bound: `none` marks that path (the
source raises `UnboundLocalError` at line 221). -/
def runSweeps (p : ℕ) (slices : List (ℕ × ℕ)) (n : ℕ) (tol : ℝ) :
    ℕ → RMat → Option (RMat × ℝ × ℕ × Bool)
  | 0, _ => none
  | fuel + 1, C =>
    let s := jacobiSweep p slices n C
    let g := Real.sqrt s.2
    if g < tol then some (s.1, g, 1, true)
    else
      match runSweeps p slices n tol fuel s.1 with
      | none => some (s.1, g, 1, false)
      | some (C2, g2, k, b) => some (C2, g2, k + 1, b)

/-- `CIb = reduce(numpy.dot, (iaos.T, s, orbocc))` after
`iaos = orth.vec_lowdin(iaos, s)` (source lines 122 and 158);
`lowdinS` is the external Löwdin collaborator. -/
def projCIb (lowdinS : RMat → RMat → RMat) (orbocc s iaos0 : RMat)
    (nAO : ℕ) : RMat :=
  matMul nAO (matMul nAO (matT (lowdinS iaos0 s)) s) orbocc

/-- Result record of one `ibo_loc` run: the rotated projection matrix, the
final gradient norm, sweeps executed, the `Converged` flag, and the
re-assembled orbitals `ibos`. -/
structure IboRun where
  cib : RMat
  grad : ℝ
  iters : ℕ
  converged : Bool
  ibos : RMat

/-- `ibo_loc` (source lines 117–236).  `lowdinS`/`lowdin` model
`orth.vec_lowdin` with and without an overlap argument, `mo1to1` models
`mo_mapping.mo_1to1map`; the atom slices are passed in (the default path
builds them through `atomSlices`).  `assert exponent in (2, 4)` (line 118)
is checked before anything else; non-convergence only logs a warning and
the result is still returned. -/
def ibo_loc (lowdinS : RMat → RMat → RMat) (lowdin : RMat → RMat)
    (mo1to1 : RMat → ℕ → ℕ) (orbocc s iaos0 : RMat)
    (nAO nIAO nOcc : ℕ) (slices : List (ℕ × ℕ))
    (exponent : ℕ) (grad_tol : ℝ) (max_iter : ℕ) : Except PyErr IboRun :=
  if exponent = 2 ∨ exponent = 4 then
    let iaos := lowdinS iaos0 s
    let CIb0 := projCIb lowdinS orbocc s iaos0 nAO
    match runSweeps exponent slices nOcc grad_tol max_iter CIb0 with
    | none => .error .nameError
    | some (C, g, k, b) =>
      let ibos := matMul nIAO iaos (lowdin C)
      let u0 := matMul nAO (matMul nAO (matT orbocc) s) ibos
      let sorted_idx := mo1to1 u0
      .ok ⟨C, g, k, b, fun r c => ibos r (sorted_idx c)⟩
  else .error .assertionError

/-! ## C4 scenario: a pair of columns perfectly localized on disjoint
atoms -/

/-- For each atom slice, at most one of the two columns is nonzero
there. -/
def DisjointPairSupport (slices : List (ℕ × ℕ)) (C : RMat) (i j : ℕ) : Prop :=
  ∀ sl ∈ slices,
    (∀ k ∈ Finset.Ico sl.1 sl.2, C k i = 0) ∨
    (∀ k ∈ Finset.Ico sl.1 sl.2, C k j = 0)

/-- A two-column matrix, each column on its own one-orbital atom. -/
def exCIb : RMat := fun k c =>
  if k = 0 ∧ c = 0 then 1 else if k = 1 ∧ c = 1 then 1 else 0

/-! ## LocalizerDispatch (`ibo`, source lines 65–72) -/

/-- Whether the structure object is a periodic cell (`getattr(mol,
'pbc_intor', None)` is set) or a molecule. -/
inductive MolKind where
  | molecule
  | cell
  deriving DecidableEq, Repr

/-- The occupied-orbital argument: a single 2-D coefficient array, or
anything else (multiple k-point blocks). -/
inductive OrboccArg where
  | single (m : RMat)
  | kblocks (ms : List RMat)

/-- The overlap-selection step at the top of `ibo` (source lines 65–72):
with `s` supplied it is used as-is; otherwise a cell gets
`mol.pbc_intor('int1e_ovlp')` (the collaborator output `pbcOvlp`) only for
a single 2-D orbital block and multi-k-point input raises
`NotImplementedError`; a molecule gets `mol.intor_symmetric('int1e_ovlp')`
(`molOvlp`). -/
def overlap_dispatch (pbcOvlp molOvlp : RMat) (mol : MolKind)
    (orbocc : OrboccArg) (s : Option RMat) : Except PyErr RMat :=
  match s with
  | some s0 => .ok s0
  | none =>
    match mol with
    | .cell =>
      match orbocc with
      | .single _ => .ok pbcOvlp
      | .kblocks _ => .error .notImplementedError
    | .molecule => .ok molOvlp

/-! ## ResultAssembler (source lines 227–235), over `Fin`-indexed
matrices -/

/-- `ibos = numpy.dot(iaos, orth.vec_lowdin(CIb))`, then
`u0 = orbocc.conj().T · s · ibos` and `ibos[:, mo_1to1map(u0)]`
(source lines 231–235); `lowdin` and `mo1to1` are the external
collaborators, real-valued orbitals so `conj().T` is `ᵀ`. -/
def assembleIbos {nAO nIAO nOcc : ℕ}
    (lowdin : Matrix (Fin nIAO) (Fin nOcc) ℝ → Matrix (Fin nIAO) (Fin nOcc) ℝ)
    (mo1to1 : Matrix (Fin nOcc) (Fin nOcc) ℝ → Fin nOcc → Fin nOcc)
    (iaos : Matrix (Fin nAO) (Fin nIAO) ℝ) (s : Matrix (Fin nAO) (Fin nAO) ℝ)
    (orbocc : Matrix (Fin nAO) (Fin nOcc) ℝ)
    (CIb : Matrix (Fin nIAO) (Fin nOcc) ℝ) : Matrix (Fin nAO) (Fin nOcc) ℝ :=
  let ibos := iaos * lowdin CIb
  let u0 := orbocc.transpose * s * ibos
  ibos.submatrix id (mo1to1 u0)

/-- Frobenius norm, the default of `numpy.linalg.norm` (source line
228). -/
def frobNorm {m n : ℕ} (M : Matrix (Fin m) (Fin n) ℝ) : ℝ :=
  Real.sqrt (∑ i, ∑ j, M i j ^ 2)

/-! ## Heap model for the frame claim

Arrays live in a store addressed by naturals; `salloc` hands out a fresh
address, `swrite` is an in-place `CIb[:,c] = ...` assignment.  The pure
value computations are shared with the functional embedding above. -/

/-- A store of arrays: memory plus the next fresh address. -/
structure Store where
  mem : ℕ → RMat
  fresh : ℕ

/-- Allocate a new array (every numpy product / `vec_lowdin` result is a
new allocation). -/
def salloc (st : Store) (v : RMat) : Store × ℕ :=
  (⟨fun q => if q = st.fresh then v else st.mem q, st.fresh + 1⟩, st.fresh)

/-- Overwrite the array at address `p` in place. -/
def swrite (st : Store) (p : ℕ) (v : RMat) : Store :=
  ⟨fun q => if q = p then v else st.mem q, st.fresh⟩

/-- Replace one column of a matrix value. -/
def setCol (C : RMat) (c0 : ℕ) (v : ℕ → ℝ) : RMat :=
  fun k c => if c = c0 then v k else C k c

/-- One orbital pair against the store: the two column assignments
`CIb[:,i] = cs*Ci + ss*Cj` and `CIb[:,j] = -ss*Ci + cs*Cj` write in place
into the array at `cib`, after copying the old columns (source lines
207–212). -/
def jacobiPairMem (p : ℕ) (slices : List (ℕ × ℕ)) (cib : ℕ)
    (acc : Store × ℝ) (i j : ℕ) : Store × ℝ :=
  let C := acc.1.mem cib
  let AB := calcAB p slices C i j
  if AB.1 ^ 2 + AB.2 ^ 2 < 1e-12 then acc
  else
    let phi := 0.25 * arctan2 AB.2 (-AB.1)
    let Ci := fun k => C k i
    let Cj := fun k => C k j
    let st1 := swrite acc.1 cib
      (setCol (acc.1.mem cib) i
        (fun k => Real.cos phi * Ci k + Real.sin phi * Cj k))
    let st2 := swrite st1 cib
      (setCol (st1.mem cib) j
        (fun k => -Real.sin phi * Ci k + Real.cos phi * Cj k))
    (st2, acc.2 + AB.2 ^ 2)

/-- One sweep against the store. -/
def jacobiSweepMem (p : ℕ) (slices : List (ℕ × ℕ)) (n : ℕ) (cib : ℕ)
    (st : Store) : Store × ℝ :=
  (List.range n).foldl
    (fun acc i =>
      (List.range i).foldl (fun acc2 j => jacobiPairMem p slices cib acc2 i j) acc)
    (st, 0)

/-- The sweep loop against the store. -/
def runSweepsMem (p : ℕ) (slices : List (ℕ × ℕ)) (n : ℕ) (cib : ℕ) (tol : ℝ) :
    ℕ → Store → Option (Store × ℝ × ℕ × Bool)
  | 0, _ => none
  | fuel + 1, st =>
    let s := jacobiSweepMem p slices n cib st
    let g := Real.sqrt s.2
    if g < tol then some (s.1, g, 1, true)
    else
      match runSweepsMem p slices n cib tol fuel s.1 with
      | none => some (s.1, g, 1, false)
      | some (st2, g2, k, b) => some (st2, g2, k + 1, b)

/-- `ibo_loc` against the store: the inputs are the arrays at `pOrbocc`,
`pS`, `pIaos`; `iaos = vec_lowdin(iaos, s)` rebinds the local name to a
fresh allocation, `CIb` is a fresh allocation, the sweeps write only into
`CIb`, and the epilogue allocates `ibos`, `u0` and the reordered output.
Returns the final store and the output address. -/
def ibo_locMem (lowdinS : RMat → RMat → RMat) (lowdin : RMat → RMat)
    (mo1to1 : RMat → ℕ → ℕ) (pOrbocc pS pIaos : ℕ)
    (nAO nIAO nOcc : ℕ) (slices : List (ℕ × ℕ))
    (exponent : ℕ) (grad_tol : ℝ) (max_iter : ℕ) (st : Store) :
    Except PyErr (Store × ℕ) :=
  if exponent = 2 ∨ exponent = 4 then
    let a1 := salloc st (lowdinS (st.mem pIaos) (st.mem pS))
    let a2 := salloc a1.1
      (matMul nAO (matMul nAO (matT (a1.1.mem a1.2)) (a1.1.mem pS))
        (a1.1.mem pOrbocc))
    match runSweepsMem exponent slices nOcc a2.2 grad_tol max_iter a2.1 with
    | none => .error .nameError
    | some (st3, _, _, _) =>
      let a4 := salloc st3 (matMul nIAO (st3.mem a1.2) (lowdin (st3.mem a2.2)))
      let a5 := salloc a4.1
        (matMul nAO (matMul nAO (matT (a4.1.mem pOrbocc)) (a4.1.mem pS))
          (a4.1.mem a4.2))
      let a6 := salloc a5.1
        (fun r c => a5.1.mem a4.2 r (mo1to1 (a5.1.mem a5.2) c))
      .ok (a6.1, a6.2)
  else .error .assertionError

/-- The memory visible after a run: on success the final store, on an
exception the store as the failing call left it (no store is returned, so
the pre-state stands for the caller's arrays). -/
def finalMem (r : Except PyErr (Store × ℕ)) (st0 : Store) (q : ℕ) : RMat :=
  match r with
  | .ok (st, _) => st.mem q
  | .error _ => st0.mem q

/-- Store evolution that leaves every pre-existing address intact. -/
def Preserves (st st' : Store) : Prop :=
  st.fresh ≤ st'.fresh ∧ ∀ q < st.fresh, st'.mem q = st.mem q

end

/-! # Theorems

## C2 — the atom offsets partition the orbital index range -/

theorem ibOffsetsFrom_eq_offsPure (atoms : List String) :
    ∀ start : ℕ, (∀ a ∈ atoms, (nAoX (filterAlpha a)).isSome = true) →
      ibOffsetsFrom start atoms = .ok (offsPure start atoms) := by
  induction atoms with
  | nil => intro start _; rfl
  | cons a rest ih =>
    intro start h
    obtain ⟨c, hc⟩ := Option.isSome_iff_exists.mp (h a (List.mem_cons_self a rest))
    have hca : aoCount a = c := by simp [aoCount, hc]
    have hr := ih (start + aoCount a)
      (fun x hx => h x (List.mem_cons_of_mem a hx))
    rw [hca] at hr
    simp [ibOffsetsFrom, offsPure, hc, hca, hr, Except.map]

theorem offsPure_length (atoms : List String) :
    ∀ start, (offsPure start atoms).length = atoms.length := by
  induction atoms with
  | nil => intro _; rfl
  | cons a rest ih => intro start; simp [offsPure, ih]

theorem offs_getD_succ (atoms : List String) :
    ∀ start k, k < atoms.length →
      (start :: offsPure start atoms).getD (k + 1) 0 =
        (start :: offsPure start atoms).getD k 0 + aoCount (atoms.getD k "") := by
  induction atoms with
  | nil => intro start k hk; exact absurd hk (by simp)
  | cons a rest ih =>
    intro start k hk
    cases k with
    | zero => simp [offsPure]
    | succ k =>
      have hrec := ih (start + aoCount a) k (by simpa using hk)
      simpa [offsPure] using hrec

theorem offs_getD_mono (atoms : List String) (start : ℕ) :
    ∀ l k, k ≤ l → l ≤ atoms.length →
      (start :: offsPure start atoms).getD k 0 ≤
        (start :: offsPure start atoms).getD l 0 := by
  intro l
  induction l with
  | zero =>
    intro k hk _
    have hk0 : k = 0 := Nat.le_zero.mp hk
    subst hk0
    exact le_rfl
  | succ l ihl =>
    intro k hk hl
    rcases Nat.eq_or_lt_of_le hk with rfl | hlt
    · exact le_rfl
    · have h1 := ihl k (by omega) (by omega)
      have h2 := offs_getD_succ atoms start l (by omega)
      omega

theorem offs_getD_last (atoms : List String) :
    ∀ start, (start :: offsPure start atoms).getD atoms.length 0 =
      start + (atoms.map aoCount).sum := by
  induction atoms with
  | nil => intro start; simp
  | cons a rest ih =>
    intro start
    have := ih (start + aoCount a)
    simpa [offsPure, Nat.add_assoc] using this

theorem offs_cover (atoms : List String) :
    ∀ start x, (∃ k, k < atoms.length ∧
        (start :: offsPure start atoms).getD k 0 ≤ x ∧
        x < (start :: offsPure start atoms).getD (k + 1) 0)
      ↔ start ≤ x ∧ x < start + (atoms.map aoCount).sum := by
  induction atoms with
  | nil => intro start x; simp
  | cons a rest ih =>
    intro start x
    constructor
    · rintro ⟨k, hk, h1, h2⟩
      cases k with
      | zero =>
        simp only [offsPure, List.getD_cons_zero, List.getD_cons_succ] at h1 h2
        simp only [List.map_cons, List.sum_cons]
        omega
      | succ k =>
        have hmem := (ih (start + aoCount a) x).mp
          ⟨k, by simpa using hk, by simpa [offsPure] using h1,
            by simpa [offsPure] using h2⟩
        simp only [List.map_cons, List.sum_cons]
        omega
    · rintro ⟨h1, h2⟩
      by_cases hx : x < start + aoCount a
      · exact ⟨0, by simp, by simpa [offsPure], by simpa [offsPure] using hx⟩
      · have h2s : start + aoCount a ≤ x ∧
            x < start + aoCount a + (rest.map aoCount).sum := by
          simp only [List.map_cons, List.sum_cons] at h2
          omega
        obtain ⟨k, hk, g1, g2⟩ := (ih (start + aoCount a) x).mpr ⟨h2s.1, h2s.2⟩
        exact ⟨k + 1, by simpa using hk, by simpa [offsPure] using g1,
          by simpa [offsPure] using g2⟩

theorem range_map_getD {α : Type} (hd : α) (f : ℕ → α) (n k : ℕ) (hk : k < n) :
    (((List.range n).map f).getD k hd) = f k := by
  have hlen : k < ((List.range n).map f).length := by simpa using hk
  rw [List.getD_eq_getElem _ _ hlen]
  simp

/-- C2: for atoms all present in the table, the offsets start at 0 and
grow by each atom's orbital count in order, and the derived slices are one
per atom, contiguous, non-overlapping, and cover `[0, totalOrbitals)`
exactly. -/
theorem ibo_C2_atom_offsets_partition (Atoms : List String)
    (h : (Atoms.all fun a => (nAoX (filterAlpha a)).isSome) = true) :
    ∃ offs slices,
      MakeAtomIbOffsets Atoms = .ok offs ∧ atomSlices Atoms = .ok slices ∧
      offs.length = Atoms.length + 1 ∧
      offs.getD 0 0 = 0 ∧
      (∀ k, k < Atoms.length →
        offs.getD (k + 1) 0 =
          offs.getD k 0 + (nAoX (filterAlpha (Atoms.getD k ""))).getD 0) ∧
      slices.length = Atoms.length ∧
      (∀ k, k < Atoms.length →
        slices.getD k (0, 0) = (offs.getD k 0, offs.getD (k + 1) 0)) ∧
      (∀ k, k + 1 < Atoms.length →
        (slices.getD k (0, 0)).2 = (slices.getD (k + 1) (0, 0)).1) ∧
      (∀ x, (∃ k, k < Atoms.length ∧ (slices.getD k (0, 0)).1 ≤ x ∧
          x < (slices.getD k (0, 0)).2) ↔ x < offs.getD Atoms.length 0) ∧
      (∀ x k l, k < Atoms.length → l < Atoms.length →
        (slices.getD k (0, 0)).1 ≤ x → x < (slices.getD k (0, 0)).2 →
        (slices.getD l (0, 0)).1 ≤ x → x < (slices.getD l (0, 0)).2 →
        k = l) := by
  have hall : ∀ a ∈ Atoms, (nAoX (filterAlpha a)).isSome = true := by
    simpa [List.all_eq_true] using h
  have hoffs : MakeAtomIbOffsets Atoms = .ok (0 :: offsPure 0 Atoms) := by
    simp [MakeAtomIbOffsets, ibOffsetsFrom_eq_offsPure Atoms 0 hall, Except.map]
  have hslget : ∀ k, k < Atoms.length →
      (((List.range Atoms.length).map fun A =>
          ((0 :: offsPure 0 Atoms).getD A 0,
           (0 :: offsPure 0 Atoms).getD (A + 1) 0)).getD k (0, 0)) =
        ((0 :: offsPure 0 Atoms).getD k 0, (0 :: offsPure 0 Atoms).getD (k + 1) 0) :=
    fun k hk => range_map_getD _ _ _ _ hk
  refine ⟨0 :: offsPure 0 Atoms,
    (List.range Atoms.length).map fun A =>
      ((0 :: offsPure 0 Atoms).getD A 0, (0 :: offsPure 0 Atoms).getD (A + 1) 0),
    hoffs, ?_, ?_, rfl, ?_, ?_, hslget, ?_, ?_, ?_⟩
  · simp [atomSlices, hoffs, Except.map]
  · simp [offsPure_length]
  · intro k hk
    have := offs_getD_succ Atoms 0 k hk
    simpa [aoCount] using this
  · simp
  · intro k hk
    rw [hslget k (by omega), hslget (k + 1) (by omega)]
  · intro x
    have hcov := offs_cover Atoms 0 x
    have hlast := offs_getD_last Atoms 0
    constructor
    · rintro ⟨k, hk, h1, h2⟩
      rw [hslget k hk] at h1 h2
      have := hcov.mp ⟨k, hk, h1, h2⟩
      omega
    · intro hx
      obtain ⟨k, hk, h1, h2⟩ := hcov.mpr ⟨Nat.zero_le x, by omega⟩
      exact ⟨k, hk, by rw [hslget k hk]; exact ⟨h1, h2⟩⟩
  · intro x k l hk hl hk1 hk2 hl1 hl2
    rw [hslget k hk] at hk1 hk2
    rw [hslget l hl] at hl1 hl2
    by_contra hne
    rcases Nat.lt_or_ge k l with hlt | hge
    · have := offs_getD_mono Atoms 0 l (k + 1) (by omega) (by omega)
      omega
    · have hlt2 : l < k := by omega
      have := offs_getD_mono Atoms 0 k (l + 1) (by omega) (by omega)
      omega

/-- Witness for C2 at the atom list `["H", "O"]`. -/
theorem ibo_C2_witness :
    ((["H", "O"].all fun a => (nAoX (filterAlpha a)).isSome) = true) ∧
    ∃ offs slices,
      MakeAtomIbOffsets ["H", "O"] = .ok offs ∧ atomSlices ["H", "O"] = .ok slices :=
  ⟨by decide, by
    obtain ⟨offs, slices, h1, h2, _⟩ :=
      ibo_C2_atom_offsets_partition ["H", "O"] (by decide)
    exact ⟨offs, slices, h1, h2⟩⟩

/-! ## C6 / C10 — `get_offset` -/

theorem runsAux_ne_nil (toks : List String) :
    ∀ t start i, runsAux t start i toks ≠ [] := by
  induction toks with
  | nil => intro t start i; simp [runsAux]
  | cons t2 rest ih =>
    intro t start i
    by_cases h : t2 = t <;> simp [runsAux, h, ih]

theorem runsAux_head (toks : List String) :
    ∀ t start i, ∃ e l, runsAux t start i toks = ((start : Int), e) :: l := by
  induction toks with
  | nil => intro t start i; exact ⟨(i : Int), [], rfl⟩
  | cons t2 rest ih =>
    intro t start i
    by_cases h : t2 = t
    · simpa [runsAux, h] using ih t start (i + 1)
    · exact ⟨(i : Int), runsAux t2 i (i + 1) rest, by simp [runsAux, h]⟩

theorem runsAux_last_snd (toks : List String) :
    ∀ t start i d, ((runsAux t start i toks).getLastD d).2 =
      ((i + toks.length : ℕ) : Int) := by
  induction toks with
  | nil => intro t start i d; simp [runsAux]
  | cons t2 rest ih =>
    intro t start i d
    by_cases h : t2 = t
    · have := ih t start (i + 1) d
      simp only [runsAux, h, if_pos, List.length_cons] at this ⊢
      rw [this]
      congr 1
      omega
    · have := ih t2 i (i + 1) ((start : Int), (i : Int))
      simp only [runsAux, h, ite_false, List.getLastD_cons, List.length_cons] at this ⊢
      rw [this]
      congr 1
      omega

theorem runsAux_chained (toks : List String) :
    ∀ t start i, List.Chain' (fun ab cd : Int × Int => ab.2 = cd.1)
      (runsAux t start i toks) := by
  induction toks with
  | nil => intro t start i; simp [runsAux]
  | cons t2 rest ih =>
    intro t start i
    by_cases h : t2 = t
    · simpa [runsAux, h] using ih t start (i + 1)
    · simp only [runsAux, h, ite_false]
      obtain ⟨e, l, hl⟩ := runsAux_head rest t2 i (i + 1)
      rw [hl]
      exact List.Chain'.cons (by simp) (hl ▸ ih t2 i (i + 1))

theorem except_bind_ok {ε α β : Type} (a : α) (f : α → Except ε β) :
    (Except.ok a : Except ε α) >>= f = f a := rfl

theorem except_bind_error {ε α β : Type} (e : ε) (f : α → Except ε β) :
    (Except.error e : Except ε α) >>= f = Except.error e := rfl

theorem goLoop_cons (i : ℕ) (st : GoState) (lab : String) (rest : List String) :
    goLoop i st (lab :: rest) =
      match goStep i st lab with
      | .ok st2 => goLoop (i + 1) st2 rest
      | .error e => .error e := by
  cases h : goStep i st lab <;>
    simp [goLoop, h, except_bind_ok, except_bind_error]

/-- Master characterization of the `get_offset` loop from a mid-run state:
`t` is the current run token (with integer value `vt`), the run began at
index `start`, the labels from index `i` on are `rest`.  If the values
never decrease the loop succeeds and the final `offset ++
[(last_i, i + len)]` is the previous slices plus the maximal runs of the
remaining tokens; at the first decrease it raises the unordered-labels
error. -/
theorem goLoop_runs (rest : List String) :
    ∀ (i : ℕ) (t : String) (vt start : ℕ) (offs : List (Int × Int)),
      (∀ lab ∈ rest, (leadNat? lab).isSome = true) →
      pyInt? t = some (vt : Int) →
      (List.Chain' (· ≤ ·) (vt :: leadVals rest) →
        ∃ st', goLoop i ⟨t, (vt : Int), (start : Int), offs⟩ rest = .ok st' ∧
          st'.offset ++ [(st'.last_i, ((i + rest.length : ℕ) : Int))] =
            offs ++ runsAux t start i (leadToks rest)) ∧
      (¬ List.Chain' (· ≤ ·) (vt :: leadVals rest) →
        goLoop i ⟨t, (vt : Int), (start : Int), offs⟩ rest =
          .error .unorderedLabels) := by
  induction rest with
  | nil =>
    intro i t vt start offs _ _
    refine ⟨fun _ => ⟨⟨t, (vt : Int), (start : Int), offs⟩, rfl, ?_⟩,
      fun hc => absurd (by simp [leadVals]) hc⟩
    simp [leadToks, runsAux]
  | cons lab rest2 ih =>
    intro i t vt start offs hwf ht
    obtain ⟨v0, hv0⟩ := Option.isSome_iff_exists.mp (hwf lab (List.mem_cons_self _ _))
    have hv0' : (leadTok? lab).bind (fun tk => (pyInt? tk).bind fun n => n.toNat') =
        some v0 := hv0
    obtain ⟨tk, htk, hrest⟩ := Option.bind_eq_some.mp hv0'
    obtain ⟨n, hn, hton⟩ := Option.bind_eq_some.mp hrest
    have hneq : n = ((v0 : ℕ) : Int) := by
      rcases n with m | m
      · simpa [Int.toNat'] using hton
      · simp [Int.toNat'] at hton
    have hpi : pyInt? tk = some ((v0 : ℕ) : Int) := by rw [hn, hneq]
    obtain ⟨tl, hsp⟩ : ∃ tl, pySplit lab = tk :: tl := by
      unfold leadTok? at htk
      rcases hs : pySplit lab with _ | ⟨a, l⟩
      · rw [hs] at htk; simp at htk
      · rw [hs] at htk
        simp only [List.head?_cons, Option.some.injEq] at htk
        exact ⟨l, by rw [htk]⟩
    have hvals : leadVals (lab :: rest2) = v0 :: leadVals rest2 := by
      simp [leadVals, hv0]
    have htoks : leadToks (lab :: rest2) = tk :: leadToks rest2 := by
      simp [leadToks, htk]
    have hwf2 : ∀ x ∈ rest2, (leadNat? x).isSome = true :=
      fun x hx => hwf x (List.mem_cons_of_mem _ hx)
    by_cases hdec : v0 < vt
    · -- immediate decrease: the unordered-labels error fires
      have hstep : goStep i ⟨t, (vt : Int), (start : Int), offs⟩ lab =
          .error .unorderedLabels := by
        simp [goStep, hsp, hpi]
        omega
      constructor
      · intro hc
        exfalso
        rw [hvals] at hc
        exact absurd (List.chain'_cons.mp hc).1 (by omega)
      · intro _
        rw [goLoop_cons, hstep]
    · -- no decrease at this step
      have hnotlt : ¬ ((v0 : ℕ) : Int) < (vt : Int) := by
        simp only [Int.ofNat_lt]
        omega
      by_cases heq : tk = t
      · -- same token: the state is unchanged, the run continues
        have hvv : v0 = vt := by
          rw [heq] at hpi
          rw [ht] at hpi
          simpa using hpi.symm
        have hstep : goStep i ⟨t, (vt : Int), (start : Int), offs⟩ lab =
            .ok ⟨t, (vt : Int), (start : Int), offs⟩ := by
          simp [goStep, hsp, heq, ht]
        have hrec := ih (i + 1) t vt start offs hwf2 ht
        constructor
        · intro hc
          rw [hvals] at hc
          have hc2 : List.Chain' (· ≤ ·) (vt :: leadVals rest2) := by
            have := List.chain'_cons.mp hc
            subst hvv
            exact this.2
          obtain ⟨st', hst', hoff⟩ := hrec.1 hc2
          refine ⟨st', by rw [goLoop_cons, hstep]; exact hst', ?_⟩
          have hlen : i + 1 + rest2.length = i + (lab :: rest2).length := by
            simp only [List.length_cons]
            omega
          rw [hlen] at hoff
          rw [hoff, htoks]
          simp [runsAux, heq]
        · intro hc
          rw [hvals] at hc
          have hc2 : ¬ List.Chain' (· ≤ ·) (vt :: leadVals rest2) := by
            intro hcon
            exact hc (by
              subst hvv
              exact List.chain'_cons.mpr ⟨le_rfl, hcon⟩)
          rw [goLoop_cons, hstep]
          exact hrec.2 hc2
      · -- new token: close the current run, open a new one at index i
        have hstep : goStep i ⟨t, (vt : Int), (start : Int), offs⟩ lab =
            .ok ⟨tk, ((v0 : ℕ) : Int), (i : Int),
              offs ++ [((start : Int), (i : Int))]⟩ := by
          simp [goStep, hsp, hpi, heq, hnotlt]
        have hrec := ih (i + 1) tk v0 i (offs ++ [((start : Int), (i : Int))])
          hwf2 hpi
        constructor
        · intro hc
          rw [hvals] at hc
          obtain ⟨st', hst', hoff⟩ := hrec.1 (List.chain'_cons.mp hc).2
          refine ⟨st', by rw [goLoop_cons, hstep]; exact hst', ?_⟩
          have hlen : i + 1 + rest2.length = i + (lab :: rest2).length := by
            simp only [List.length_cons]
            omega
          rw [hlen] at hoff
          rw [hoff, htoks]
          simp [runsAux, heq]
        · intro hc
          rw [hvals] at hc
          have hc2 : ¬ List.Chain' (· ≤ ·) (v0 :: leadVals rest2) := by
            intro hcon
            exact hc (List.chain'_cons.mpr ⟨by omega, hcon⟩)
          rw [goLoop_cons, hstep]
          exact hrec.2 hc2

theorem chain_le_iff_no_decrease (vals : List ℕ) :
    List.Chain' (· ≤ ·) vals ↔
      ¬∃ j k, j < k ∧ k < vals.length ∧ vals.getD k 0 < vals.getD j 0 := by
  rw [List.chain'_iff_pairwise]
  constructor
  · rintro hp ⟨j, k, hjk, hk, hdec⟩
    have hj : j < vals.length := by omega
    have hord := (List.pairwise_iff_get.mp hp) ⟨j, hj⟩ ⟨k, hk⟩ hjk
    rw [List.getD_eq_getElem vals 0 hj, List.getD_eq_getElem vals 0 hk] at hdec
    simp only [List.get_eq_getElem] at hord
    omega
  · intro h
    rw [List.pairwise_iff_get]
    intro a b hab
    by_contra hlt
    push_neg at hlt
    exact h ⟨a, b, hab, b.isLt, by
      rw [List.getD_eq_getElem vals 0 a.isLt, List.getD_eq_getElem vals 0 b.isLt]
      simpa [List.get_eq_getElem] using hlt⟩

/-- `get_offset` on a non-empty, well-formed label list: success with the
maximal-run slices exactly when the leading values never decrease, the
unordered-labels error otherwise. -/
theorem get_offset_characterization (labels : List String)
    (hwf : labelsOk labels = true) (hne : labels ≠ []) :
    (List.Chain' (· ≤ ·) (leadVals labels) →
      get_offset labels = .ok (tokenRuns (leadToks labels))) ∧
    (¬ List.Chain' (· ≤ ·) (leadVals labels) →
      get_offset labels = .error .unorderedLabels) := by
  rcases labels with _ | ⟨lab0, rest⟩
  · exact absurd rfl hne
  have hwf' : ∀ l ∈ lab0 :: rest, (leadNat? l).isSome = true := by
    simpa [labelsOk, List.all_eq_true] using hwf
  obtain ⟨v0, hv0⟩ := Option.isSome_iff_exists.mp (hwf' lab0 (List.mem_cons_self _ _))
  have hv0' : (leadTok? lab0).bind (fun tk => (pyInt? tk).bind fun n => n.toNat') =
      some v0 := hv0
  obtain ⟨tk0, htk, hrest⟩ := Option.bind_eq_some.mp hv0'
  obtain ⟨n, hn, hton⟩ := Option.bind_eq_some.mp hrest
  have hneq : n = ((v0 : ℕ) : Int) := by
    rcases n with m | m
    · simpa [Int.toNat'] using hton
    · simp [Int.toNat'] at hton
  have hpi : pyInt? tk0 = some ((v0 : ℕ) : Int) := by rw [hn, hneq]
  obtain ⟨tl, hsp⟩ : ∃ tl, pySplit lab0 = tk0 :: tl := by
    unfold leadTok? at htk
    rcases hs : pySplit lab0 with _ | ⟨a, l⟩
    · rw [hs] at htk; simp at htk
    · rw [hs] at htk
      simp only [List.head?_cons, Option.some.injEq] at htk
      exact ⟨l, by rw [htk]⟩
  have hvals : leadVals (lab0 :: rest) = v0 :: leadVals rest := by
    simp [leadVals, hv0]
  have htoks : leadToks (lab0 :: rest) = tk0 :: leadToks rest := by
    simp [leadToks, htk]
  have hwf2 : ∀ x ∈ rest, (leadNat? x).isSome = true :=
    fun x hx => hwf' x (List.mem_cons_of_mem _ hx)
  have hne0 : tk0 ≠ "-1" := by
    intro h
    rw [h] at hpi
    have : pyInt? "-1" = some (-1 : Int) := rfl
    rw [this] at hpi
    simp only [Option.some.injEq] at hpi
    omega
  have hstep0 : goStep 0 ⟨"-1", -1, -1, []⟩ lab0 =
      .ok ⟨tk0, ((v0 : ℕ) : Int), ((0 : ℕ) : Int), []⟩ := by
    simp [goStep, hsp, hpi, hne0]
    omega
  have hmaster := goLoop_runs rest 1 tk0 v0 0 [] hwf2 hpi
  constructor
  · intro hc
    have hc' : List.Chain' (· ≤ ·) (v0 :: leadVals rest) := by rwa [hvals] at hc
    obtain ⟨st', hst', hoff⟩ := hmaster.1 hc'
    have hloop : goLoop 0 ⟨"-1", -1, -1, []⟩ (lab0 :: rest) = .ok st' := by
      rw [goLoop_cons, hstep0]
      exact hst'
    unfold get_offset
    rw [hloop, except_bind_ok]
    simp only [List.length_cons]
    have hoff' : st'.offset ++ [(st'.last_i, ((rest.length + 1 : ℕ) : Int))] =
        runsAux tk0 0 1 (leadToks rest) := by
      simpa [Nat.add_comm] using hoff
    rw [htoks]
    simp only [tokenRuns]
    rw [← hoff']
  · intro hc
    have hc' : ¬ List.Chain' (· ≤ ·) (v0 :: leadVals rest) := by rwa [hvals] at hc
    have herr := hmaster.2 hc'
    have hloop : goLoop 0 ⟨"-1", -1, -1, []⟩ (lab0 :: rest) =
        .error .unorderedLabels := by
      rw [goLoop_cons, hstep0]
      exact herr
    unfold get_offset
    rw [hloop, except_bind_error]

/-- C6 (amended): for every non-empty list of labels whose leading tokens
are unsigned integer literals, `get_offset` raises the unordered-labels
error exactly when some label's atom index is strictly smaller than an
earlier label's; otherwise it returns one slice per maximal run of
consecutive labels sharing the same leading *token* (string equality — two
spellings of the same index, such as `"1"` and `"01"`, start separate
slices), the final slice extending to the end of the label sequence. -/
theorem ibo_C6_label_grouping (labels : List String)
    (hwf : labelsOk labels = true) (hne : labels ≠ []) :
    (get_offset labels = .error .unorderedLabels ↔
      ∃ j k, j < k ∧ k < labels.length ∧
        (leadVals labels).getD k 0 < (leadVals labels).getD j 0) ∧
    ((¬ ∃ j k, j < k ∧ k < labels.length ∧
        (leadVals labels).getD k 0 < (leadVals labels).getD j 0) →
      get_offset labels = .ok (tokenRuns (leadToks labels))) := by
  have hchar := get_offset_characterization labels hwf hne
  have hlen : (leadVals labels).length = labels.length := by simp [leadVals]
  have hiff := chain_le_iff_no_decrease (leadVals labels)
  rw [hlen] at hiff
  refine ⟨⟨?_, ?_⟩, ?_⟩
  · intro herr
    by_contra hno
    have hok := hchar.1 (hiff.mpr hno)
    rw [hok] at herr
    exact absurd herr (by simp)
  · intro hex
    exact hchar.2 fun hc => (hiff.mp hc) hex
  · intro hno
    exact hchar.1 (hiff.mpr hno)

/-- Counterexample to C6 as stated: the labels `["1 H 1s", "01 H 2s"]`
both carry atom index 1, a single maximal run by atom *index*, yet the
code returns two slices because it groups by string equality of the
leading token. -/
theorem ibo_C6_counterexample :
    leadNat? "1 H 1s" = some 1 ∧ leadNat? "01 H 2s" = some 1 ∧
    get_offset ["1 H 1s", "01 H 2s"] = .ok [(0, 1), (1, 2)] ∧
    [(0, 1), (1, 2)] ≠ ([(0, 2)] : List (Int × Int)) :=
  ⟨rfl, rfl, rfl, by decide⟩

/-- Witness for C6 at the spec's own example
`["0 H 1s", "1 H 1s", "0 O 2s"]` (atom index decreases from 1 to 0). -/
theorem ibo_C6_witness :
    get_offset ["0 H 1s", "1 H 1s", "0 O 2s"] = .error .unorderedLabels :=
  (ibo_C6_label_grouping ["0 H 1s", "1 H 1s", "0 O 2s"]
    (by decide) (by decide)).1.mpr ⟨1, 2, by decide, by decide, by decide⟩

/-- C10: on non-empty well-formed non-decreasing labels `get_offset`
returns at least one slice, consecutive slices share their boundary, and
the last slice ends at the number of labels; on the empty list it fails
with the unbound-loop-variable error rather than returning `[]`. -/
theorem ibo_C10_get_offset_totality (labels : List String)
    (hwf : labelsOk labels = true) (hne : labels ≠ [])
    (hnd : List.Chain' (· ≤ ·) (leadVals labels)) :
    (∃ slices, get_offset labels = .ok slices ∧ slices ≠ [] ∧
      List.Chain' (fun ab cd : Int × Int => ab.2 = cd.1) slices ∧
      (slices.getLastD (0, 0)).2 = (labels.length : Int)) ∧
    get_offset ([] : List String) = .error .nameError := by
  refine ⟨?_, rfl⟩
  refine ⟨tokenRuns (leadToks labels),
    (get_offset_characterization labels hwf hne).1 hnd, ?_⟩
  rcases labels with _ | ⟨lab0, rest⟩
  · exact absurd rfl hne
  have htoks : ∃ t0 ts, leadToks (lab0 :: rest) = t0 :: ts ∧ ts.length = rest.length := by
    refine ⟨(leadTok? lab0).getD "", leadToks rest, ?_, by simp [leadToks]⟩
    simp [leadToks]
  obtain ⟨t0, ts, hts, hlen⟩ := htoks
  rw [hts]
  refine ⟨?_, ?_, ?_⟩
  · simpa [tokenRuns] using runsAux_ne_nil ts t0 0 1
  · simpa [tokenRuns] using runsAux_chained ts t0 0 1
  · have hlast := runsAux_last_snd ts t0 0 1 (0, 0)
    simp only [tokenRuns]
    rw [hlast]
    simp only [List.length_cons]
    omega

/-! ## C1 — one sweep refines the spec's description -/

theorem foldl_flatMap {α β γ : Type} (l : List α) (g : α → List β)
    (f : γ → β → γ) (init : γ) :
    (l.flatMap g).foldl f init =
      l.foldl (fun acc a => (g a).foldl f acc) init := by
  induction l generalizing init with
  | nil => rfl
  | cons a rest ih => simp [List.foldl_append, ih]

theorem foldl_ext {α β : Type} (f g : α → β → α) (h : ∀ a b, f a b = g a b) :
    ∀ (l : List β) (init : α), l.foldl f init = l.foldl g init := by
  intro l
  induction l with
  | nil => intro _; rfl
  | cons x rest ih => intro init; simp only [List.foldl_cons, h, ih]

theorem foldl_pair_add (slices : List (ℕ × ℕ)) (f g : ℕ × ℕ → ℝ) :
    ∀ init : ℝ × ℝ,
      slices.foldl (fun AB sl => (AB.1 + f sl, AB.2 + g sl)) init =
        (init.1 + (slices.map f).sum, init.2 + (slices.map g).sum) := by
  induction slices with
  | nil => intro init; simp
  | cons sl rest ih =>
    intro init
    simp only [List.foldl_cons, ih, List.map_cons, List.sum_cons]
    exact Prod.ext (by ring_nf) (by ring_nf)

theorem calcAB_eq_specAB (p : ℕ) (slices : List (ℕ × ℕ)) (C : RMat)
    (i j : ℕ) : calcAB p slices C i j = specAB p slices C i j := by
  unfold calcAB specAB
  rw [foldl_pair_add]
  simp

/-- C1: one Jacobi sweep of `ibo_loc` equals the spec's description —
lower-triangular pair order, `Aij`/`Bij` accumulated as sums over the atom
slices with the stated quadratic (p = 2) and quartic (p = 4) formulas,
each non-skipped pair rotated in place by `phi = 0.25·atan2(Bij, −Aij)`
with `Bij²` added to `fGrad`, later pairs seeing the already-rotated
matrix. -/
theorem ibo_C1_sweep_refines_spec (p : ℕ) (_hp : p = 2 ∨ p = 4)
    (slices : List (ℕ × ℕ)) (n : ℕ) (C : RMat) :
    jacobiSweep p slices n C = jacobiSweepSpec p slices n C := by
  unfold jacobiSweep jacobiSweepSpec lowerPairs
  rw [foldl_flatMap]
  apply foldl_ext
  intro st i
  rw [List.foldl_map]
  apply foldl_ext
  intro st2 j
  simp only [jacobiPair, calcAB_eq_specAB]

/-- Witness for C1 with `p = 2` on a concrete two-orbital system. -/
theorem ibo_C1_witness :
    ((2 : ℕ) = 2 ∨ (2 : ℕ) = 4) ∧
    jacobiSweep 2 [(0, 1), (1, 2)] 2 exCIb = jacobiSweepSpec 2 [(0, 1), (1, 2)] 2 exCIb :=
  ⟨by decide, ibo_C1_sweep_refines_spec 2 (by decide) [(0, 1), (1, 2)] 2 exCIb⟩

/-! ## C3 / C5 — the sweep loop and the exponent assertion -/

theorem cibAfter_shift (p : ℕ) (slices : List (ℕ × ℕ)) (n : ℕ) (C0 : RMat) :
    ∀ m, cibAfter p slices n (jacobiSweep p slices n C0).1 m =
      cibAfter p slices n C0 (m + 1) := by
  intro m
  induction m with
  | zero => rfl
  | succ m ih => simp only [cibAfter, ih]

theorem gradAt_shift (p : ℕ) (slices : List (ℕ × ℕ)) (n : ℕ) (C0 : RMat)
    (m : ℕ) : gradAt p slices n (jacobiSweep p slices n C0).1 m =
      gradAt p slices n C0 (m + 1) := by
  unfold gradAt
  rw [cibAfter_shift]

/-- Behavior of the sweep loop with at least one sweep of fuel: it runs
`k ≤ fuel` sweeps, the reported gradient is the square root of the last
executed sweep's `fGrad`, it converges exactly at the first sweep whose
gradient norm is below the tolerance, and when it never converges it runs
all `fuel` sweeps and still returns. -/
theorem runSweeps_spec (p : ℕ) (slices : List (ℕ × ℕ)) (n : ℕ) (tol : ℝ) :
    ∀ (fuel : ℕ) (C0 : RMat), 1 ≤ fuel →
      ∃ k b, runSweeps p slices n tol fuel C0 =
          some (cibAfter p slices n C0 k, gradAt p slices n C0 (k - 1), k, b) ∧
        1 ≤ k ∧ k ≤ fuel ∧
        (b = true ↔ ∃ m, m < fuel ∧ gradAt p slices n C0 m < tol) ∧
        (b = true → gradAt p slices n C0 (k - 1) < tol ∧
          ∀ m, m < k - 1 → ¬ gradAt p slices n C0 m < tol) ∧
        (b = false → k = fuel) := by
  intro fuel
  induction fuel with
  | zero => intro C0 h; omega
  | succ fuel ih =>
    intro C0 _
    by_cases hg : Real.sqrt (jacobiSweep p slices n C0).2 < tol
    · refine ⟨1, true, ?_, le_rfl, by omega, ?_, ?_, by simp⟩
      · simp only [runSweeps]
        rw [if_pos hg]
        rfl
      · exact ⟨fun _ => ⟨0, by omega, hg⟩, fun _ => rfl⟩
      · exact fun _ => ⟨hg, fun m hm => absurd hm (by omega)⟩
    · rcases Nat.eq_zero_or_pos fuel with hf0 | hfpos
      · subst hf0
        refine ⟨1, false, ?_, le_rfl, le_rfl, ?_, by simp, fun _ => rfl⟩
        · simp only [runSweeps]
          rw [if_neg hg]
          rfl
        · constructor
          · intro hb; exact absurd hb (by simp)
          · rintro ⟨m, hm, hlt⟩
            have hm0 : m = 0 := by omega
            subst hm0
            exact absurd hlt hg
      · obtain ⟨k, b, heq, hk1, hk2, hbiff, hbfirst, hbfalse⟩ :=
          ih (jacobiSweep p slices n C0).1 hfpos
        refine ⟨k + 1, b, ?_, by omega, by omega, ?_, ?_, ?_⟩
        · simp only [runSweeps]
          rw [if_neg hg, heq]
          rw [cibAfter_shift]
          have hgr : gradAt p slices n (jacobiSweep p slices n C0).1 (k - 1) =
              gradAt p slices n C0 (k + 1 - 1) := by
            rw [gradAt_shift]
            congr 1
            omega
          rw [hgr]
        · constructor
          · intro hb
            obtain ⟨m, hm, hlt⟩ := hbiff.mp hb
            rw [gradAt_shift] at hlt
            exact ⟨m + 1, by omega, hlt⟩
          · rintro ⟨m, hm, hlt⟩
            rcases Nat.eq_zero_or_pos m with hm0 | hmpos
            · subst hm0
              exact absurd hlt hg
            · obtain ⟨m', rfl⟩ := Nat.exists_eq_succ_of_ne_zero (by omega : m ≠ 0)
              rw [← gradAt_shift] at hlt
              exact hbiff.mpr ⟨m', by omega, hlt⟩
        · intro hb
          obtain ⟨hfst, hprev⟩ := hbfirst hb
          constructor
          · rw [← Nat.succ_sub_one (k + 1), Nat.succ_sub_one]
            have : k + 1 - 1 = (k - 1) + 1 := by omega
            rw [this, ← gradAt_shift]
            exact hfst
          · intro m hm
            rcases Nat.eq_zero_or_pos m with hm0 | hmpos
            · subst hm0
              exact hg
            · obtain ⟨m', rfl⟩ := Nat.exists_eq_succ_of_ne_zero (by omega : m ≠ 0)
              rw [← gradAt_shift]
              exact hprev m' (by omega)
        · intro hb
          rw [hbfalse hb]

/-- C3 (amended, `max_iter ≥ 1`): `ibo_loc` executes at most `max_iter`
sweeps, each sweep's gradient norm is `sqrt(fGrad)`, it stops converged at
the first sweep whose gradient norm is strictly below `grad_tol`, and
without convergence it runs exactly `max_iter` sweeps and still returns
the best-effort result normally (no exception; only a logged warning). -/
theorem ibo_C3_loop_behavior
    (lowdinS : RMat → RMat → RMat) (lowdin : RMat → RMat)
    (mo1to1 : RMat → ℕ → ℕ) (orbocc s iaos0 : RMat)
    (nAO nIAO nOcc : ℕ) (slices : List (ℕ × ℕ))
    (exponent : ℕ) (grad_tol : ℝ) (max_iter : ℕ)
    (hp : exponent = 2 ∨ exponent = 4) (hm : 1 ≤ max_iter) :
    ∃ r : IboRun,
      ibo_loc lowdinS lowdin mo1to1 orbocc s iaos0 nAO nIAO nOcc slices
          exponent grad_tol max_iter = .ok r ∧
      1 ≤ r.iters ∧ r.iters ≤ max_iter ∧
      r.cib = cibAfter exponent slices nOcc
        (projCIb lowdinS orbocc s iaos0 nAO) r.iters ∧
      r.grad = gradAt exponent slices nOcc
        (projCIb lowdinS orbocc s iaos0 nAO) (r.iters - 1) ∧
      (r.converged = true ↔ ∃ m, m < max_iter ∧
        gradAt exponent slices nOcc
          (projCIb lowdinS orbocc s iaos0 nAO) m < grad_tol) ∧
      (r.converged = true →
        gradAt exponent slices nOcc
          (projCIb lowdinS orbocc s iaos0 nAO) (r.iters - 1) < grad_tol ∧
        ∀ m, m < r.iters - 1 →
          ¬ gradAt exponent slices nOcc
              (projCIb lowdinS orbocc s iaos0 nAO) m < grad_tol) ∧
      (r.converged = false → r.iters = max_iter) := by
  obtain ⟨k, b, heq, h1, h2, h3, h4, h5⟩ :=
    runSweeps_spec exponent slices nOcc grad_tol max_iter
      (projCIb lowdinS orbocc s iaos0 nAO) hm
  refine ⟨⟨cibAfter exponent slices nOcc (projCIb lowdinS orbocc s iaos0 nAO) k,
    gradAt exponent slices nOcc (projCIb lowdinS orbocc s iaos0 nAO) (k - 1),
    k, b,
    fun r c =>
      matMul nIAO (lowdinS iaos0 s)
        (lowdin (cibAfter exponent slices nOcc
          (projCIb lowdinS orbocc s iaos0 nAO) k)) r
        (mo1to1 (matMul nAO (matMul nAO (matT orbocc) s)
          (matMul nIAO (lowdinS iaos0 s)
            (lowdin (cibAfter exponent slices nOcc
              (projCIb lowdinS orbocc s iaos0 nAO) k)))) c)⟩,
    ?_, h1, h2, rfl, rfl, h3, h4, h5⟩
  simp only [ibo_loc]
  rw [if_pos hp, heq]

/-- C3 counterexample as stated: with `max_iter = 0` the loop body never
runs, the epilogue references the never-bound loop variable, and the call
raises (UnboundLocalError) instead of returning the best-effort result. -/
theorem ibo_C3_counterexample :
    ibo_loc (fun a _ => a) (fun a => a) (fun _ => id) zeroRM zeroRM zeroRM
      0 0 0 [] 2 1 0 = .error .nameError := rfl

/-- C5: any exponent outside {2, 4} fails the `assert` before the
orthogonalization, the projection, and every sweep (the error is
independent of every other argument). -/
theorem ibo_C5_invalid_exponent
    (lowdinS : RMat → RMat → RMat) (lowdin : RMat → RMat)
    (mo1to1 : RMat → ℕ → ℕ) (orbocc s iaos0 : RMat)
    (nAO nIAO nOcc : ℕ) (slices : List (ℕ × ℕ))
    (exponent : ℕ) (grad_tol : ℝ) (max_iter : ℕ)
    (h2 : exponent ≠ 2) (h4 : exponent ≠ 4) :
    ibo_loc lowdinS lowdin mo1to1 orbocc s iaos0 nAO nIAO nOcc slices
      exponent grad_tol max_iter = .error .assertionError := by
  unfold ibo_loc
  rw [if_neg]
  tauto

/-- Witness for C3 at a concrete one-sweep run. -/
theorem ibo_C3_witness :
    ((2 : ℕ) = 2 ∨ (2 : ℕ) = 4) ∧ (1 : ℕ) ≤ 1 ∧
    ∃ r : IboRun, ibo_loc (fun a _ => a) (fun a => a) (fun _ => id)
      zeroRM zeroRM zeroRM 0 0 0 [] 2 1 1 = .ok r ∧ 1 ≤ r.iters ∧ r.iters ≤ 1 :=
  ⟨by decide, by decide, by
    obtain ⟨r, hok, hge, hle, _⟩ := ibo_C3_loop_behavior (fun a _ => a)
      (fun a => a) (fun _ => id) zeroRM zeroRM zeroRM 0 0 0 [] 2 1 1
      (by decide) (by decide)
    exact ⟨r, hok, hge, hle⟩⟩

/-! ## C4 — a pair already localized on disjoint atoms -/

theorem Bterm_cij_zero (p : ℕ) (Cii Cjj : ℝ) : Bterm p Cii 0 Cjj = 0 := by
  unfold Bterm
  split <;> ring

theorem Aterm_cij_zero_nonpos (p : ℕ) (Cii Cjj : ℝ)
    (h : Cii = 0 ∨ Cjj = 0) : Aterm p Cii 0 Cjj ≤ 0 := by
  unfold Aterm
  rcases h with h | h <;> subst h <;> split
  · nlinarith [sq_nonneg Cjj]
  · nlinarith [sq_nonneg (Cjj ^ 2)]
  · nlinarith [sq_nonneg Cii]
  · nlinarith [sq_nonneg (Cii ^ 2)]

theorem disjoint_sliceDot_zero (slices : List (ℕ × ℕ)) (C : RMat)
    (hd : DisjointPairSupport slices C 1 0) :
    ∀ sl ∈ slices, sliceDot C sl 1 0 = 0 := by
  intro sl hsl
  unfold sliceDot
  rcases hd sl hsl with h | h
  · exact Finset.sum_eq_zero fun k hk => by rw [h k hk, zero_mul]
  · exact Finset.sum_eq_zero fun k hk => by rw [h k hk, mul_zero]

theorem disjoint_sliceDot_diag (slices : List (ℕ × ℕ)) (C : RMat)
    (hd : DisjointPairSupport slices C 1 0) :
    ∀ sl ∈ slices, sliceDot C sl 1 1 = 0 ∨ sliceDot C sl 0 0 = 0 := by
  intro sl hsl
  rcases hd sl hsl with h | h
  · exact Or.inl (Finset.sum_eq_zero fun k hk => by rw [h k hk, zero_mul])
  · exact Or.inr (Finset.sum_eq_zero fun k hk => by rw [h k hk, zero_mul])

theorem list_sum_nonpos : ∀ l : List ℝ, (∀ x ∈ l, x ≤ 0) → l.sum ≤ 0 := by
  intro l
  induction l with
  | nil => intro _; simp
  | cons x rest ih =>
    intro h
    simp only [List.sum_cons]
    have h1 := h x (by simp)
    have h2 := ih fun y hy => h y (by simp [hy])
    linarith

theorem rotateCols_zero (C : RMat) (i j : ℕ) : rotateCols C i j 0 = C := by
  funext k c
  unfold rotateCols
  rw [Real.cos_zero, Real.sin_zero]
  by_cases hci : c = i
  · subst hci
    simp
  · by_cases hcj : c = j
    · subst hcj
      simp [hci]
    · simp [hci, hcj]

theorem disjoint_calcAB (p : ℕ) (slices : List (ℕ × ℕ)) (C : RMat)
    (hd : DisjointPairSupport slices C 1 0) :
    (calcAB p slices C 1 0).2 = 0 ∧ (calcAB p slices C 1 0).1 ≤ 0 := by
  rw [calcAB_eq_specAB]
  unfold specAB
  constructor
  · exact List.sum_eq_zero fun x hx => by
      obtain ⟨sl, hsl, rfl⟩ := List.mem_map.mp hx
      rw [disjoint_sliceDot_zero slices C hd sl hsl]
      exact Bterm_cij_zero p _ _
  · apply list_sum_nonpos
    intro x hx
    obtain ⟨sl, hsl, rfl⟩ := List.mem_map.mp hx
    rw [disjoint_sliceDot_zero slices C hd sl hsl]
    exact Aterm_cij_zero_nonpos p _ _ (disjoint_sliceDot_diag slices C hd sl hsl)

/-- C4 (amended): for a two-column projection whose columns live on
disjoint atoms, the single pair of the first sweep has `Bij = 0` and
`Aij ≤ 0`; the pair is skipped only when `Aij² < 1e-12`, and otherwise the
rotation angle `0.25·atan2(0, −Aij)` is zero — either way the sweep leaves
`CIb` unchanged, contributes nothing to `fGrad`, and the gradient norm is
0 immediately. -/
theorem ibo_C4_disjoint_pair (p : ℕ) (_hp : p = 2 ∨ p = 4)
    (slices : List (ℕ × ℕ)) (C : RMat)
    (hd : DisjointPairSupport slices C 1 0) :
    (calcAB p slices C 1 0).2 = 0 ∧
    (calcAB p slices C 1 0).1 ≤ 0 ∧
    jacobiSweep p slices 2 C = (C, 0) ∧
    Real.sqrt (jacobiSweep p slices 2 C).2 = 0 := by
  obtain ⟨hB, hA⟩ := disjoint_calcAB p slices C hd
  have hsweep : jacobiSweep p slices 2 C = jacobiPair p slices (C, 0) 1 0 := by
    have hr2 : List.range 2 = [0, 1] := rfl
    have hr1 : List.range 1 = [0] := rfl
    have hr0 : List.range 0 = ([] : List ℕ) := rfl
    unfold jacobiSweep
    rw [hr2]
    simp only [List.foldl_cons, List.foldl_nil, hr0, hr1]
  have hpair : jacobiPair p slices (C, 0) 1 0 = (C, 0) := by
    show (if (calcAB p slices C 1 0).1 ^ 2 + (calcAB p slices C 1 0).2 ^ 2 < 1e-12
        then ((C : RMat), (0 : ℝ))
        else (rotateCols C 1 0 (0.25 * arctan2 (calcAB p slices C 1 0).2
          (-(calcAB p slices C 1 0).1)), 0 + (calcAB p slices C 1 0).2 ^ 2)) = (C, 0)
    rcases le_or_lt 1e-12 ((calcAB p slices C 1 0).1 ^ 2 +
        (calcAB p slices C 1 0).2 ^ 2) with hge | hlt
    · rw [if_neg (not_lt.mpr hge)]
      have hAne : (calcAB p slices C 1 0).1 ≠ 0 := by
        intro h0
        rw [h0, hB] at hge
        norm_num at hge
      have hApos : 0 < -(calcAB p slices C 1 0).1 := by
        rcases lt_or_eq_of_le hA with h | h
        · linarith
        · exact absurd h hAne
      have hphi : 0.25 * arctan2 (calcAB p slices C 1 0).2
          (-(calcAB p slices C 1 0).1) = 0 := by
        rw [hB]
        unfold arctan2
        rw [if_pos hApos]
        rw [zero_div, Real.arctan_zero, mul_zero]
      rw [hphi, rotateCols_zero, hB]
      norm_num
    · rw [if_pos hlt]
  rw [hsweep, hpair]
  refine ⟨hB, hA, rfl, by simp [Real.sqrt_zero]⟩

/-- Counterexample to C4 as stated: a perfectly localized disjoint pair
(identity projection on two one-orbital atoms) yields `Aij² + Bij² = 4`,
nowhere below `1e-12`, so the pair is not skipped (the rotation applied is
the identity instead). -/
theorem ibo_C4_counterexample :
    DisjointPairSupport [(0, 1), (1, 2)] exCIb 1 0 ∧
    calcAB 2 [(0, 1), (1, 2)] exCIb 1 0 = (-2, 0) ∧
    ¬ ((calcAB 2 [(0, 1), (1, 2)] exCIb 1 0).1 ^ 2 +
       (calcAB 2 [(0, 1), (1, 2)] exCIb 1 0).2 ^ 2 < 1e-12) := by
  have hAB : calcAB 2 [(0, 1), (1, 2)] exCIb 1 0 = (-2, 0) := by
    have h01 : Finset.Ico 0 1 = ({0} : Finset ℕ) := rfl
    have h12 : Finset.Ico 1 2 = ({1} : Finset ℕ) := rfl
    simp only [calcAB, List.foldl_cons, List.foldl_nil, sliceDot, Aterm, Bterm,
      h01, h12, Finset.sum_singleton, exCIb]
    norm_num
  refine ⟨?_, hAB, ?_⟩
  · intro sl hsl
    simp only [List.mem_cons, List.not_mem_nil, or_false] at hsl
    rcases hsl with rfl | rfl
    · left
      intro k hk
      have hk0 : k = 0 := by
        simp only [Finset.mem_Ico] at hk
        omega
      subst hk0
      simp [exCIb]
    · right
      intro k hk
      have hk1 : k = 1 := by
        simp only [Finset.mem_Ico] at hk
        omega
      subst hk1
      simp [exCIb]
  · rw [hAB]
    norm_num

/-- Witness for the amended C4 at the concrete disjoint pair. -/
theorem ibo_C4_witness :
    ((2 : ℕ) = 2 ∨ (2 : ℕ) = 4) ∧
    (calcAB 2 [(0, 1), (1, 2)] exCIb 1 0).2 = 0 ∧
    jacobiSweep 2 [(0, 1), (1, 2)] 2 exCIb = (exCIb, 0) ∧
    Real.sqrt (jacobiSweep 2 [(0, 1), (1, 2)] 2 exCIb).2 = 0 := by
  have hd : DisjointPairSupport [(0, 1), (1, 2)] exCIb 1 0 := by
    intro sl hsl
    simp only [List.mem_cons, List.not_mem_nil, or_false] at hsl
    rcases hsl with rfl | rfl
    · left
      intro k hk
      have hk0 : k = 0 := by
        simp only [Finset.mem_Ico] at hk
        omega
      subst hk0
      simp [exCIb]
    · right
      intro k hk
      have hk1 : k = 1 := by
        simp only [Finset.mem_Ico] at hk
        omega
      subst hk1
      simp [exCIb]
  obtain ⟨h1, _, h3, h4⟩ :=
    ibo_C4_disjoint_pair 2 (by decide) [(0, 1), (1, 2)] exCIb hd
  exact ⟨by decide, h1, h3, h4⟩

/-- Witness for C5 at exponent 3. -/
theorem ibo_C5_witness :
    (3 : ℕ) ≠ 2 ∧ (3 : ℕ) ≠ 4 ∧
    ibo_loc (fun a _ => a) (fun a => a) (fun _ => id) zeroRM zeroRM zeroRM
      0 0 0 [] 3 1 1 = .error .assertionError :=
  ⟨by decide, by decide,
    ibo_C5_invalid_exponent _ _ _ _ _ _ _ _ _ _ _ _ _ (by decide) (by decide)⟩

/-! ## C7 — periodic multi-k-point dispatch -/

/-- C7 (amended): when the caller omits the overlap matrix, a periodic
cell with orbitals that are not a single 2-D block fails with the
`NotImplementedError`-class error at dispatch, before any optimization
work. -/
theorem ibo_C7_kpoint_dispatch (pbcOvlp molOvlp : RMat) (ms : List RMat) :
    overlap_dispatch pbcOvlp molOvlp .cell (.kblocks ms) none =
      .error .notImplementedError := rfl

/-- Counterexample to C7 as stated: with a caller-supplied overlap matrix
the same periodic multi-k-point call does not fail at dispatch — the
supplied overlap is accepted and the pipeline proceeds. -/
theorem ibo_C7_counterexample :
    overlap_dispatch zeroRM zeroRM .cell (.kblocks []) (some zeroRM) =
      .ok zeroRM ∧
    overlap_dispatch zeroRM zeroRM .cell (.kblocks []) (some zeroRM) ≠
      .error .notImplementedError :=
  ⟨rfl, fun h => Except.noConfusion h⟩

/-! ## C8 — orthonormality of the assembled orbitals -/

/-- C8: in the exact-arithmetic model, given the external contracts — the
Löwdin collaborator returns a matrix with orthonormal columns, the
reference basis is orthonormal under `s`, and the 1-to-1 column map is
injective — the assembled orbitals satisfy
`FinalOrbitalsᵀ · s · FinalOrbitals = I` exactly, so the deviation norm is
0, below the claimed `1e-6`. -/
theorem ibo_C8_orthonormality {nAO nIAO nOcc : ℕ}
    (lowdin : Matrix (Fin nIAO) (Fin nOcc) ℝ → Matrix (Fin nIAO) (Fin nOcc) ℝ)
    (mo1to1 : Matrix (Fin nOcc) (Fin nOcc) ℝ → Fin nOcc → Fin nOcc)
    (iaos : Matrix (Fin nAO) (Fin nIAO) ℝ) (s : Matrix (Fin nAO) (Fin nAO) ℝ)
    (orbocc : Matrix (Fin nAO) (Fin nOcc) ℝ)
    (CIb : Matrix (Fin nIAO) (Fin nOcc) ℝ)
    (hlow : (lowdin CIb).transpose * lowdin CIb = 1)
    (hiao : iaos.transpose * s * iaos = 1)
    (hinj : Function.Injective
      (mo1to1 (orbocc.transpose * s * (iaos * lowdin CIb)))) :
    (assembleIbos lowdin mo1to1 iaos s orbocc CIb).transpose * s *
      assembleIbos lowdin mo1to1 iaos s orbocc CIb = 1 ∧
    frobNorm ((assembleIbos lowdin mo1to1 iaos s orbocc CIb).transpose * s *
      assembleIbos lowdin mo1to1 iaos s orbocc CIb - 1) < 1e-6 := by
  have h1 : (iaos * lowdin CIb).transpose * s * (iaos * lowdin CIb) = 1 := by
    have hmid : (lowdin CIb).transpose * (iaos.transpose * s * iaos) *
        lowdin CIb = 1 := by
      rw [hiao, Matrix.mul_one, hlow]
    calc (iaos * lowdin CIb).transpose * s * (iaos * lowdin CIb)
        = (lowdin CIb).transpose * (iaos.transpose * s * iaos) * lowdin CIb := by
          rw [Matrix.transpose_mul]
          simp only [Matrix.mul_assoc]
      _ = 1 := hmid
  have h2 : (assembleIbos lowdin mo1to1 iaos s orbocc CIb).transpose * s *
      assembleIbos lowdin mo1to1 iaos s orbocc CIb = 1 := by
    show (((iaos * lowdin CIb).submatrix id
        (mo1to1 (orbocc.transpose * s * (iaos * lowdin CIb)))).transpose * s *
      ((iaos * lowdin CIb).submatrix id
        (mo1to1 (orbocc.transpose * s * (iaos * lowdin CIb))))) = 1
    ext i j
    have hsub : (((iaos * lowdin CIb).submatrix id
        (mo1to1 (orbocc.transpose * s * (iaos * lowdin CIb)))).transpose * s *
      ((iaos * lowdin CIb).submatrix id
        (mo1to1 (orbocc.transpose * s * (iaos * lowdin CIb))))) i j =
        ((iaos * lowdin CIb).transpose * s * (iaos * lowdin CIb))
          (mo1to1 (orbocc.transpose * s * (iaos * lowdin CIb)) i)
          (mo1to1 (orbocc.transpose * s * (iaos * lowdin CIb)) j) := by
      simp [Matrix.mul_apply, Matrix.submatrix_apply, Matrix.transpose_apply]
    rw [hsub, h1]
    simp only [Matrix.one_apply, hinj.eq_iff]
  refine ⟨h2, ?_⟩
  rw [h2, sub_self]
  unfold frobNorm
  have hz : (∑ i : Fin nOcc, ∑ j : Fin nOcc, ((0 : Matrix (Fin nOcc) (Fin nOcc) ℝ) i j) ^ 2) = 0 := by
    simp
  rw [hz, Real.sqrt_zero]
  norm_num

/-- Witness for C8 on the 1×1 identity system with the identity
collaborators. -/
theorem ibo_C8_witness :
    (assembleIbos (fun _ : Matrix (Fin 1) (Fin 1) ℝ => (1 : Matrix (Fin 1) (Fin 1) ℝ))
        (fun _ : Matrix (Fin 1) (Fin 1) ℝ => (id : Fin 1 → Fin 1))
        (1 : Matrix (Fin 1) (Fin 1) ℝ) (1 : Matrix (Fin 1) (Fin 1) ℝ)
        (1 : Matrix (Fin 1) (Fin 1) ℝ) (1 : Matrix (Fin 1) (Fin 1) ℝ)).transpose *
      (1 : Matrix (Fin 1) (Fin 1) ℝ) *
      assembleIbos (fun _ : Matrix (Fin 1) (Fin 1) ℝ => (1 : Matrix (Fin 1) (Fin 1) ℝ))
        (fun _ : Matrix (Fin 1) (Fin 1) ℝ => (id : Fin 1 → Fin 1))
        (1 : Matrix (Fin 1) (Fin 1) ℝ) (1 : Matrix (Fin 1) (Fin 1) ℝ)
        (1 : Matrix (Fin 1) (Fin 1) ℝ) (1 : Matrix (Fin 1) (Fin 1) ℝ) = 1 :=
  (ibo_C8_orthonormality _ _ _ _ _ _
    (by simp) (by simp) (fun a b h => h)).1

/-! ## C9 — the inputs are never modified -/

theorem preserves_refl (st : Store) : Preserves st st :=
  ⟨le_rfl, fun _ _ => rfl⟩

theorem preserves_trans {a b c : Store} (h1 : Preserves a b)
    (h2 : Preserves b c) : Preserves a c :=
  ⟨le_trans h1.1 h2.1,
   fun q hq => (h2.2 q (lt_of_lt_of_le hq h1.1)).trans (h1.2 q hq)⟩

theorem preserves_salloc (st : Store) (v : RMat) :
    Preserves st (salloc st v).1 := by
  refine ⟨by simp [salloc], fun q hq => ?_⟩
  show (if q = st.fresh then v else st.mem q) = st.mem q
  rw [if_neg (by omega)]

theorem preserves_swrite {st0 st : Store} (p : ℕ) (v : RMat)
    (hp : st0.fresh ≤ p) (h : Preserves st0 st) :
    Preserves st0 (swrite st p v) := by
  refine ⟨h.1, fun q hq => ?_⟩
  show (if q = p then v else st.mem q) = st0.mem q
  rw [if_neg (by omega)]
  exact h.2 q hq

theorem jacobiPairMem_preserves (st0 : Store) (p : ℕ)
    (slices : List (ℕ × ℕ)) (cib : ℕ) (hcib : st0.fresh ≤ cib)
    (acc : Store × ℝ) (i j : ℕ) (h : Preserves st0 acc.1) :
    Preserves st0 (jacobiPairMem p slices cib acc i j).1 := by
  simp only [jacobiPairMem]
  split
  · exact h
  · exact preserves_swrite cib _ hcib (preserves_swrite cib _ hcib h)

theorem foldl_preserves {β : Type} (st0 : Store)
    (f : Store × ℝ → β → Store × ℝ)
    (hf : ∀ acc b, Preserves st0 acc.1 → Preserves st0 (f acc b).1) :
    ∀ (l : List β) (init : Store × ℝ),
      Preserves st0 init.1 → Preserves st0 (l.foldl f init).1 := by
  intro l
  induction l with
  | nil => intro init h; exact h
  | cons x rest ih => intro init h; exact ih _ (hf init x h)

theorem jacobiSweepMem_preserves (st0 : Store) (p : ℕ)
    (slices : List (ℕ × ℕ)) (n : ℕ) (cib : ℕ) (hcib : st0.fresh ≤ cib)
    (st : Store) (h : Preserves st0 st) :
    Preserves st0 (jacobiSweepMem p slices n cib st).1 := by
  unfold jacobiSweepMem
  refine foldl_preserves st0 _ ?_ (List.range n) (st, 0) h
  intro acc i hacc
  refine foldl_preserves st0 _ ?_ (List.range i) acc hacc
  intro acc2 j h2
  exact jacobiPairMem_preserves st0 p slices cib hcib acc2 i j h2

theorem runSweepsMem_preserves (st0 : Store) (p : ℕ)
    (slices : List (ℕ × ℕ)) (n : ℕ) (cib : ℕ) (tol : ℝ)
    (hcib : st0.fresh ≤ cib) :
    ∀ (fuel : ℕ) (st : Store), Preserves st0 st →
      ∀ res, runSweepsMem p slices n cib tol fuel st = some res →
        Preserves st0 res.1 := by
  intro fuel
  induction fuel with
  | zero =>
    intro st h res hres
    exact absurd hres (by simp [runSweepsMem])
  | succ fuel ih =>
    intro st h res hres
    have hsw : Preserves st0 (jacobiSweepMem p slices n cib st).1 :=
      jacobiSweepMem_preserves st0 p slices n cib hcib st h
    simp only [runSweepsMem] at hres
    by_cases hg : Real.sqrt (jacobiSweepMem p slices n cib st).2 < tol
    · rw [if_pos hg] at hres
      obtain rfl := Option.some.inj hres |>.symm
      exact hsw
    · rw [if_neg hg] at hres
      cases hrec : runSweepsMem p slices n cib tol fuel
          (jacobiSweepMem p slices n cib st).1 with
      | none =>
        rw [hrec] at hres
        obtain rfl := Option.some.inj hres |>.symm
        exact hsw
      | some r2 =>
        rw [hrec] at hres
        obtain ⟨C2, g2, k2, b2⟩ := r2
        obtain rfl := Option.some.inj hres |>.symm
        exact ih _ hsw (C2, g2, k2, b2) hrec

/-- C9: `ibo_loc` never modifies the caller's arrays: every address
already allocated before the call (in particular `orbocc`, `s`, and the
supplied `iaos`) holds the same array afterwards — the Löwdin step rebinds
a local name to a fresh allocation and every in-place rotation writes only
into the freshly allocated `CIb`. -/
theorem ibo_C9_inputs_unchanged
    (lowdinS : RMat → RMat → RMat) (lowdin : RMat → RMat)
    (mo1to1 : RMat → ℕ → ℕ) (pOrbocc pS pIaos : ℕ)
    (nAO nIAO nOcc : ℕ) (slices : List (ℕ × ℕ))
    (exponent : ℕ) (grad_tol : ℝ) (max_iter : ℕ) (st : Store) (q : ℕ)
    (hq : q < st.fresh) :
    finalMem (ibo_locMem lowdinS lowdin mo1to1 pOrbocc pS pIaos nAO nIAO nOcc
      slices exponent grad_tol max_iter st) st q = st.mem q := by
  by_cases hp : exponent = 2 ∨ exponent = 4
  · simp only [ibo_locMem]
    rw [if_pos hp]
    set a1 := salloc st (lowdinS (st.mem pIaos) (st.mem pS)) with ha1
    set a2 := salloc a1.1
      (matMul nAO (matMul nAO (matT (a1.1.mem a1.2)) (a1.1.mem pS))
        (a1.1.mem pOrbocc)) with ha2
    have hpre2 : Preserves st a2.1 := by
      rw [ha2, ha1]
      exact preserves_trans (preserves_salloc _ _) (preserves_salloc _ _)
    have hcib : st.fresh ≤ a2.2 := by
      rw [ha2, ha1]
      simp [salloc]
    cases hrun : runSweepsMem exponent slices nOcc a2.2 grad_tol max_iter a2.1 with
    | none => rfl
    | some r =>
      obtain ⟨st3, g3, k3, b3⟩ := r
      have hst3 : Preserves st st3 :=
        runSweepsMem_preserves st exponent slices nOcc a2.2 grad_tol hcib
          max_iter a2.1 hpre2 (st3, g3, k3, b3) hrun
      exact (preserves_trans hst3 (preserves_trans (preserves_salloc _ _)
        (preserves_trans (preserves_salloc _ _) (preserves_salloc _ _)))).2 q hq
  · simp only [ibo_locMem]
    rw [if_neg hp]
    rfl

/-- Witness for C9 at a concrete store with three pre-allocated inputs. -/
theorem ibo_C9_witness :
    (0 : ℕ) < (⟨fun _ => zeroRM, 3⟩ : Store).fresh ∧
    finalMem (ibo_locMem (fun a _ => a) (fun a => a) (fun _ => id) 0 1 2
      0 0 0 [] 2 1 1 ⟨fun _ => zeroRM, 3⟩) ⟨fun _ => zeroRM, 3⟩ 0 =
      (⟨fun _ => zeroRM, 3⟩ : Store).mem 0 :=
  ⟨by decide,
    ibo_C9_inputs_unchanged (fun a _ => a) (fun a => a) (fun _ => id) 0 1 2
      0 0 0 [] 2 1 1 ⟨fun _ => zeroRM, 3⟩ 0 (by decide)⟩

/-- Witness for C10 at the labels `["0 a", "1 b"]`. -/
theorem ibo_C10_witness :
    (∃ slices, get_offset ["0 a", "1 b"] = .ok slices ∧ slices ≠ [] ∧
      List.Chain' (fun ab cd : Int × Int => ab.2 = cd.1) slices ∧
      (slices.getLastD (0, 0)).2 = ((["0 a", "1 b"] : List String).length : Int)) ∧
    get_offset ([] : List String) = .error .nameError :=
  ibo_C10_get_offset_totality ["0 a", "1 b"] (by decide) (by decide)
    (by
      have h : leadVals ["0 a", "1 b"] = [0, 1] := rfl
      rw [h]
      exact List.chain'_pair.mpr (by norm_num))

end IboSpec
